/-
Verification of the SendAuthorization evaluator and validator from
x/bank/types/send_authorization.go, over a shallow embedding in Lean 4.

The record type, `Accept`, `ValidateBasic`, `NewSendAuthorization` and
`toBech32Addresses` are translated from src/x/bank/types/send_authorization.go.
The multi-denomination coin container (`sdk.Coins`: `SafeSub`, `IsZero`,
`IsAllPositive`, `AmountOf`) is repository code that is not part of the
supplied sources, so it is modelled from the specification (per-denomination
checked subtraction over the whole set, failure when any denomination would
go negative, canonical coin sets carrying no zero entries).

Gas metering (`sdkCtx.GasMeter().ConsumeGas`) is modelled as a running
counter of consumed units threaded through evaluation; out-of-budget aborts
are outside the claims treated here, so the meter never trips.
-/
import Mathlib

namespace SendAuth

/-- A single coin: a denomination paired with an integer amount
(sdk.Coin; the coin container code is not under the supplied sources). -/
structure Coin where
  denom : String
  amount : Int
deriving DecidableEq, Repr

/-- A multi-denomination amount (sdk.Coins), a list of coins. -/
abbrev Coins := List Coin

/-- Modelled from the spec: the amount carried by denomination `d` in a
multi-denomination coin set (`Coins.AmountOf`, not under the supplied
sources): the sum of the amounts of the entries naming `d`, hence the unique
such amount for canonical coin sets, and `0` when `d` is absent. -/
def Coins.amountOf (cs : Coins) (d : String) : Int :=
  cs.foldr (fun c acc => (if c.denom = d then c.amount else 0) + acc) 0

/-- The list of denominations named by a coin set. -/
def Coins.denoms (cs : Coins) : List String :=
  cs.map (fun c => c.denom)

/-- Modelled from the spec: checked subtraction across the whole
multi-denomination set (`Coins.SafeSub`, not under the supplied sources).
Returns the per-denomination difference (zero entries dropped, as canonical
coin sets carry no zero amounts) together with the `isNegative` flag, true
exactly when some denomination's difference is negative. -/
def Coins.safeSub (cs sub : Coins) : Coins × Bool :=
  let allDenoms := (cs.denoms ++ sub.denoms).dedup
  let diffs := allDenoms.map (fun d => Coin.mk d (cs.amountOf d - sub.amountOf d))
  (diffs.filter (fun c => decide (c.amount ≠ 0)), diffs.any (fun c => decide (c.amount < 0)))

/-- Modelled from the spec: `Coins.IsZero` (not under the supplied sources),
true when every entry's amount is zero; in particular true of the empty set. -/
def Coins.isZero (cs : Coins) : Bool :=
  cs.all (fun c => decide (c.amount = 0))

/-- Modelled from the spec: `Coins.IsAllPositive` (not under the supplied
sources), false on the empty set, otherwise true when every amount is
strictly positive. -/
def Coins.isAllPositive (cs : Coins) : Bool :=
  !cs.isEmpty && cs.all (fun c => decide (0 < c.amount))

/-- The persisted authorization record (SendAuthorization): remaining spend
limit plus optional recipient allow-list. -/
structure SendAuthorization where
  spendLimit : Coins
  allowList : List String
deriving DecidableEq, Repr

/-- The messages the evaluator can receive: a plain bank transfer (MsgSend,
with sender, recipient and multi-denomination amount) or any other message
kind. -/
inductive Msg where
  | send (fromAddress toAddress : String) (amount : Coins)
  | other
deriving DecidableEq, Repr

/-- The error kinds surfaced by the evaluator and the validator:
ErrInvalidType ("type mismatch"), ErrInsufficientFunds,
ErrUnauthorized, ErrInvalidCoins (invalid limit), ErrDuplicateEntry. -/
inductive AuthzError where
  | invalidType
  | insufficientFunds
  | unauthorized
  | invalidCoins
  | duplicateEntry
deriving DecidableEq, Repr

/-- authz.AcceptResponse: the decision, the exhaustion/deletion signal, and
the successor record when one replaces the input record. -/
structure AcceptResponse where
  accept : Bool
  delete : Bool
  updated : Option SendAuthorization
deriving DecidableEq, Repr

/-- The fixed per-entry metering cost of the allow-list scan. -/
def gasCostPerIteration : Nat := 10

/-- The allow-list scan of Accept: walk the list, charging
`gasCostPerIteration` for every entry examined, stopping at the first entry
equal to the recipient. Returns whether the recipient was found and the
updated gas counter. -/
def scanAllowList : List String → String → Nat → Bool × Nat
  | [], _, gas => (false, gas)
  | addr :: rest, toAddr, gas =>
    if addr = toAddr then (true, gas + gasCostPerIteration)
    else scanAllowList rest toAddr (gas + gasCostPerIteration)

/-- The number of entries the scan examines before stopping: every entry up
to and including the first match, or the whole list when there is none. -/
def scanCount : List String → String → Nat
  | [], _ => 0
  | addr :: rest, toAddr =>
    if addr = toAddr then 1 else 1 + scanCount rest toAddr

/-- SendAuthorization.Accept: type check, then checked subtraction of the
amount from the spend limit, then the metered allow-list scan, then the
residual decision. Returns the outcome together with the gas counter. -/
def SendAuthorization.accept (a : SendAuthorization) (gas : Nat) (msg : Msg) :
    Except AuthzError AcceptResponse × Nat :=
  match msg with
  | Msg.other => (Except.error AuthzError.invalidType, gas)
  | Msg.send _ toAddr amount =>
    let sub := a.spendLimit.safeSub amount
    if sub.2 then (Except.error AuthzError.insufficientFunds, gas)
    else
      let scan := scanAllowList a.allowList toAddr gas
      if 0 < a.allowList.length ∧ scan.1 = false then
        (Except.error AuthzError.unauthorized, scan.2)
      else if sub.1.isZero then
        (Except.ok ⟨true, true, none⟩, scan.2)
      else
        (Except.ok ⟨true, false, some ⟨sub.1, a.allowList⟩⟩, scan.2)

/-- The duplicate scan of ValidateBasic: one pass with a seen-set, returning
ErrDuplicateEntry at the first entry already seen. -/
def findDuplicate : List String → List String → Option AuthzError
  | [], _ => none
  | x :: xs, seen =>
    if x ∈ seen then some AuthzError.duplicateEntry
    else findDuplicate xs (x :: seen)

/-- SendAuthorization.ValidateBasic: the spend limit must be non-empty and
all-positive (else ErrInvalidCoins), and the allow-list duplicate-free
(else ErrDuplicateEntry). `none` means the record is valid. -/
def SendAuthorization.validateBasic (a : SendAuthorization) : Option AuthzError :=
  if a.spendLimit.length = 0 then some AuthzError.invalidCoins
  else if !a.spendLimit.isAllPositive then some AuthzError.invalidCoins
  else findDuplicate a.allowList []

/-- A raw account address (sdk.AccAddress), a byte string. -/
abbrev AccAddress := List Nat

/-- toBech32Addresses: canonicalize each allowed address through the address
codec; an empty input produces the nil list. The codec is modelled as a
total encoding function, per the spec's precondition that canonicalization
never fails for dispatcher-supplied addresses. -/
def toBech32Addresses (allowed : List AccAddress) (codec : AccAddress → String) :
    List String :=
  if allowed.length = 0 then []
  else allowed.map codec

/-- NewSendAuthorization: build a record from a spend limit and a list of
allowed raw addresses, canonicalized through the codec. -/
def NewSendAuthorization (spendLimit : Coins) (allowed : List AccAddress)
    (codec : AccAddress → String) : SendAuthorization :=
  { spendLimit := spendLimit, allowList := toBech32Addresses allowed codec }

/-- One accepted, non-deleting evaluation step between records: some
transfer with non-negative requested amounts is accepted by `accept` and
carries record `a` to the successor record `b`. -/
def acceptedStep (a b : SendAuthorization) : Prop :=
  ∃ (gas : Nat) (fr toAddr : String) (amt : Coins) (resp : AcceptResponse),
    (∀ c ∈ amt, 0 ≤ c.amount) ∧
    (a.accept gas (Msg.send fr toAddr amt)).1 = Except.ok resp ∧
    resp.updated = some b

/-! ### Basic facts about the coin model -/

theorem Coins.amountOf_nil (d : String) : Coins.amountOf [] d = 0 := rfl

theorem Coins.amountOf_cons (c : Coin) (cs : Coins) (d : String) :
    Coins.amountOf (c :: cs) d =
      (if c.denom = d then c.amount else 0) + Coins.amountOf cs d := rfl

theorem Coins.amountOf_filter_ne_zero (cs : Coins) (d : String) :
    Coins.amountOf (cs.filter (fun c => decide (c.amount ≠ 0))) d = cs.amountOf d := by
  induction cs with
  | nil => rfl
  | cons c cs ih =>
    by_cases h : c.amount = 0
    · rw [List.filter_cons_of_neg (by simp [h]), ih, Coins.amountOf_cons, h]
      simp
    · rw [List.filter_cons_of_pos (by simp [h]), Coins.amountOf_cons,
        Coins.amountOf_cons, ih]

theorem Coins.amountOf_map (l : List String) (f : String → Int) (d : String)
    (h : l.Nodup) :
    Coins.amountOf (l.map fun e => Coin.mk e (f e)) d = if d ∈ l then f d else 0 := by
  induction l with
  | nil => simp [Coins.amountOf_nil]
  | cons e l ih =>
    rcases List.nodup_cons.mp h with ⟨he, hl⟩
    simp only [List.map_cons, Coins.amountOf_cons, ih hl]
    by_cases hd : e = d
    · subst hd
      simp [he]
    · simp [hd, List.mem_cons, Ne.symm hd]

theorem Coins.amountOf_eq_zero (cs : Coins) (d : String) (h : d ∉ cs.denoms) :
    cs.amountOf d = 0 := by
  induction cs with
  | nil => rfl
  | cons c cs ih =>
    simp only [Coins.denoms, List.map_cons, List.mem_cons, not_or] at h
    rw [Coins.amountOf_cons, if_neg (fun hh => h.1 hh.symm),
      ih (by simpa [Coins.denoms] using h.2)]
    simp

theorem Coins.amountOf_nonneg (cs : Coins) (d : String)
    (h : ∀ c ∈ cs, 0 ≤ c.amount) : 0 ≤ cs.amountOf d := by
  induction cs with
  | nil => exact le_refl 0
  | cons c cs ih =>
    rw [Coins.amountOf_cons]
    have hc := h c (List.mem_cons_self c cs)
    have hrest := ih (fun x hx => h x (List.mem_cons_of_mem c hx))
    by_cases hd : c.denom = d
    · rw [if_pos hd]; omega
    · rw [if_neg hd]; omega

theorem Coins.amountOf_pos (cs : Coins) (d : String)
    (hpos : ∀ c ∈ cs, 0 < c.amount) (hmem : d ∈ cs.denoms) : 0 < cs.amountOf d := by
  induction cs with
  | nil => simp [Coins.denoms] at hmem
  | cons c cs ih =>
    rw [Coins.amountOf_cons]
    have hrest : 0 ≤ Coins.amountOf cs d :=
      Coins.amountOf_nonneg cs d
        (fun x hx => le_of_lt (hpos x (List.mem_cons_of_mem c hx)))
    simp only [Coins.denoms, List.map_cons, List.mem_cons] at hmem
    by_cases hd : c.denom = d
    · rw [if_pos hd]
      have := hpos c (List.mem_cons_self c cs)
      omega
    · rw [if_neg hd]
      rcases hmem with hmem | hmem
      · exact absurd hmem.symm hd
      · have := ih (fun x hx => hpos x (List.mem_cons_of_mem c hx)) hmem
        omega

/-- The residual of a checked subtraction carries, in every denomination,
exactly the original amount minus the requested amount. -/
theorem Coins.safeSub_amountOf (cs sub : Coins) (d : String) :
    ((cs.safeSub sub).1).amountOf d = cs.amountOf d - sub.amountOf d := by
  unfold Coins.safeSub
  simp only
  rw [Coins.amountOf_filter_ne_zero,
    Coins.amountOf_map _ _ _ (List.nodup_dedup _)]
  by_cases h : d ∈ (cs.denoms ++ sub.denoms).dedup
  · rw [if_pos h]
  · rw [if_neg h]
    rw [List.mem_dedup, List.mem_append] at h
    push_neg at h
    rw [Coins.amountOf_eq_zero _ _ h.1, Coins.amountOf_eq_zero _ _ h.2]
    simp

/-- The `isNegative` flag of the checked subtraction is raised exactly when
some denomination's requested amount exceeds the remaining amount. -/
theorem Coins.safeSub_isNegative_iff (cs sub : Coins) :
    (cs.safeSub sub).2 = true ↔ ∃ d, cs.amountOf d < sub.amountOf d := by
  unfold Coins.safeSub
  simp only [List.any_eq_true, List.mem_map, decide_eq_true_eq]
  constructor
  · rintro ⟨c, ⟨d, _, rfl⟩, hneg⟩
    refine ⟨d, ?_⟩
    have hneg2 : cs.amountOf d - sub.amountOf d < 0 := hneg
    omega
  · rintro ⟨d, hd⟩
    refine ⟨Coin.mk d (cs.amountOf d - sub.amountOf d), ⟨d, ?_, rfl⟩,
      (by omega : cs.amountOf d - sub.amountOf d < 0)⟩
    rw [List.mem_dedup, List.mem_append]
    by_contra hnot
    push_neg at hnot
    rw [Coins.amountOf_eq_zero _ _ hnot.1, Coins.amountOf_eq_zero _ _ hnot.2] at hd
    exact absurd hd (lt_irrefl 0)

/-- The residual of a checked subtraction is all-zero exactly when the
requested amount matches the remaining amount in every denomination. -/
theorem Coins.safeSub_isZero_iff (cs sub : Coins) :
    ((cs.safeSub sub).1).isZero = true ↔ ∀ d, cs.amountOf d = sub.amountOf d := by
  unfold Coins.safeSub Coins.isZero
  simp only [List.all_eq_true, List.mem_filter, List.mem_map, decide_eq_true_eq]
  constructor
  · intro h d
    by_cases hdm : d ∈ (cs.denoms ++ sub.denoms).dedup
    · by_contra hne
      have := h (Coin.mk d (cs.amountOf d - sub.amountOf d))
        ⟨⟨d, hdm, rfl⟩, by simpa using fun hh => hne (by omega)⟩
      simp at this
      exact hne (by omega)
    · rw [List.mem_dedup, List.mem_append] at hdm
      push_neg at hdm
      rw [Coins.amountOf_eq_zero _ _ hdm.1, Coins.amountOf_eq_zero _ _ hdm.2]
  · rintro h c ⟨⟨d, _, rfl⟩, hne⟩
    simp only [decide_eq_true_eq] at hne ⊢
    have := h d
    omega

theorem Coins.safeSub_isZero_iff_residual (cs sub : Coins) :
    ((cs.safeSub sub).1).isZero = true ↔ ∀ d, ((cs.safeSub sub).1).amountOf d = 0 := by
  rw [Coins.safeSub_isZero_iff]
  constructor
  · intro h d
    rw [Coins.safeSub_amountOf]
    have := h d
    omega
  · intro h d
    have := h d
    rw [Coins.safeSub_amountOf] at this
    omega

/-- When the checked subtraction does not go negative, every entry kept in
the residual is strictly positive (zero entries are dropped). -/
theorem Coins.safeSub_pos (cs sub : Coins) (h : (cs.safeSub sub).2 = false) :
    ∀ c ∈ (cs.safeSub sub).1, 0 < c.amount := by
  intro c hc
  simp only [Coins.safeSub] at h hc
  simp only [List.mem_filter, decide_eq_true_eq] at hc
  rcases hc with ⟨hmem, hne⟩
  by_contra hle
  push_neg at hle
  have hneg : c.amount < 0 := lt_of_le_of_ne hle hne
  have htrue : (((cs.denoms ++ sub.denoms).dedup.map
      (fun d => Coin.mk d (cs.amountOf d - sub.amountOf d))).any
      (fun c => decide (c.amount < 0))) = true :=
    List.any_eq_true.mpr ⟨c, hmem, by simpa using hneg⟩
  rw [h] at htrue
  exact Bool.false_ne_true htrue

theorem Coins.isZero_false_ne_nil (cs : Coins) (h : cs.isZero = false) : cs ≠ [] := by
  intro hnil
  rw [hnil] at h
  simp [Coins.isZero] at h

theorem Coins.isAllPositive_iff (cs : Coins) :
    cs.isAllPositive = true ↔ cs ≠ [] ∧ ∀ c ∈ cs, 0 < c.amount := by
  unfold Coins.isAllPositive
  simp [List.all_eq_true, List.isEmpty_iff]

/-! ### Facts about the metered allow-list scan -/

theorem scanAllowList_found (l : List String) (toAddr : String) (gas : Nat) :
    (scanAllowList l toAddr gas).1 = true ↔ toAddr ∈ l := by
  induction l generalizing gas with
  | nil => simp [scanAllowList]
  | cons addr rest ih =>
    unfold scanAllowList
    by_cases h : addr = toAddr
    · simp [h]
    · rw [if_neg h, ih]
      constructor
      · intro hm
        exact List.mem_cons_of_mem addr hm
      · intro hm
        rcases List.mem_cons.mp hm with rfl | hm2
        · exact absurd rfl h
        · exact hm2

theorem scanAllowList_gas (l : List String) (toAddr : String) (gas : Nat) :
    (scanAllowList l toAddr gas).2 = gas + gasCostPerIteration * scanCount l toAddr := by
  induction l generalizing gas with
  | nil => simp [scanAllowList, scanCount]
  | cons addr rest ih =>
    unfold scanAllowList scanCount
    by_cases h : addr = toAddr
    · simp [h]
    · rw [if_neg h, if_neg h, ih]
      ring

theorem scanCount_of_not_mem (l : List String) (toAddr : String) (h : toAddr ∉ l) :
    scanCount l toAddr = l.length := by
  induction l with
  | nil => rfl
  | cons addr rest ih =>
    rw [List.mem_cons, not_or] at h
    unfold scanCount
    rw [if_neg (fun hh => h.1 hh.symm), ih h.2, List.length_cons]
    omega

theorem scanCount_first_occurrence (pre suf : List String) (toAddr : String)
    (h : toAddr ∉ pre) :
    scanCount (pre ++ toAddr :: suf) toAddr = pre.length + 1 := by
  induction pre with
  | nil => simp [scanCount]
  | cons addr rest ih =>
    rw [List.mem_cons, not_or] at h
    rw [List.cons_append]
    unfold scanCount
    rw [if_neg (fun hh => h.1 hh.symm), ih h.2, List.length_cons]
    omega

/-! ### Facts about the duplicate scan -/

theorem findDuplicate_eq_none_iff (l : List String) :
    ∀ seen, findDuplicate l seen = none ↔ l.Nodup ∧ ∀ x ∈ l, x ∉ seen := by
  induction l with
  | nil => intro seen; simp [findDuplicate]
  | cons x xs ih =>
    intro seen
    unfold findDuplicate
    by_cases h : x ∈ seen
    · simp only [if_pos h]
      constructor
      · intro hh; exact absurd hh (by simp)
      · rintro ⟨_, hall⟩
        exact absurd h (hall x (List.mem_cons_self x xs))
    · rw [if_neg h, ih (x :: seen)]
      constructor
      · rintro ⟨hnd, hall⟩
        refine ⟨List.nodup_cons.mpr ⟨fun hx => (hall x hx) (List.mem_cons_self x seen), hnd⟩, ?_⟩
        intro y hy
        rcases List.mem_cons.mp hy with rfl | hy2
        · exact h
        · exact fun hs => (hall y hy2) (List.mem_cons_of_mem x hs)
      · rintro ⟨hnd, hall⟩
        rcases List.nodup_cons.mp hnd with ⟨hx, hnd2⟩
        refine ⟨hnd2, ?_⟩
        intro y hy hs
        rcases List.mem_cons.mp hs with rfl | hs2
        · exact hx hy
        · exact (hall y (List.mem_cons_of_mem x hy)) hs2

theorem findDuplicate_eq_none_or (l : List String) :
    ∀ seen, findDuplicate l seen = none ∨
      findDuplicate l seen = some AuthzError.duplicateEntry := by
  induction l with
  | nil => intro seen; exact Or.inl rfl
  | cons x xs ih =>
    intro seen
    unfold findDuplicate
    by_cases h : x ∈ seen
    · rw [if_pos h]; exact Or.inr rfl
    · rw [if_neg h]; exact ih (x :: seen)

/-! ### Unfolding the evaluator -/

/-- `Accept` on a plain transfer, written out as its chain of checks. -/
theorem SendAuthorization.accept_send (a : SendAuthorization) (gas : Nat)
    (fr toAddr : String) (amt : Coins) :
    a.accept gas (Msg.send fr toAddr amt) =
      if (a.spendLimit.safeSub amt).2 then
        (Except.error AuthzError.insufficientFunds, gas)
      else if 0 < a.allowList.length ∧ (scanAllowList a.allowList toAddr gas).1 = false then
        (Except.error AuthzError.unauthorized, (scanAllowList a.allowList toAddr gas).2)
      else if (a.spendLimit.safeSub amt).1.isZero then
        (Except.ok ⟨true, true, none⟩, (scanAllowList a.allowList toAddr gas).2)
      else
        (Except.ok ⟨true, false, some ⟨(a.spendLimit.safeSub amt).1, a.allowList⟩⟩,
          (scanAllowList a.allowList toAddr gas).2) := rfl

/-- With an empty allow-list, no evaluation path ever produces the
unauthorized rejection. -/
theorem accept_ne_unauthorized_of_nil (a : SendAuthorization)
    (h0 : a.allowList = []) (gas : Nat) (msg : Msg) :
    (a.accept gas msg).1 ≠ Except.error AuthzError.unauthorized := by
  cases msg with
  | other => simp [SendAuthorization.accept]
  | send fr2 to2 amt2 =>
    rw [SendAuthorization.accept_send]
    by_cases hsub : (a.spendLimit.safeSub amt2).2 = true
    · rw [if_pos hsub]
      simp
    · rw [if_neg hsub, if_neg (by simp [h0])]
      by_cases hz : (a.spendLimit.safeSub amt2).1.isZero = true
      · rw [if_pos hz]
        simp
      · rw [if_neg hz]
        simp

/-- A record with a non-empty all-positive spend limit and a duplicate-free
allow-list passes validation. -/
theorem validateBasic_eq_none_of (a : SendAuthorization)
    (hne : a.spendLimit ≠ []) (hpos : ∀ c ∈ a.spendLimit, 0 < c.amount)
    (hnd : a.allowList.Nodup) : a.validateBasic = none := by
  unfold SendAuthorization.validateBasic
  rw [if_neg (fun hh => hne (List.length_eq_zero.mp hh)),
    if_neg (by simp [(Coins.isAllPositive_iff a.spendLimit).mpr ⟨hne, hpos⟩]),
    findDuplicate_eq_none_iff a.allowList []]
  exact ⟨hnd, by simp⟩

/-! ### The claims -/

/-- C1: No over-spend — when a transfer requests, in some denomination, more
than the remaining spend limit, or names (with positive requested amounts) a
denomination absent from the spend limit entirely, Accept rejects with
InsufficientAuthorization (ErrInsufficientFunds). The returned pair carries
no successor record and an untouched gas counter, and the input record is a
pure value the evaluator cannot mutate: the subtraction is not partially
applied on this path. -/
theorem C1_no_overspend (a : SendAuthorization) (gas : Nat) (fr toAddr : String)
    (amt : Coins)
    (h : (∃ d, a.spendLimit.amountOf d < amt.amountOf d) ∨
      ((∀ c ∈ amt, 0 < c.amount) ∧ ∃ d, d ∈ amt.denoms ∧ d ∉ a.spendLimit.denoms)) :
    a.accept gas (Msg.send fr toAddr amt) =
      (Except.error AuthzError.insufficientFunds, gas) := by
  have hneg : (a.spendLimit.safeSub amt).2 = true := by
    rw [Coins.safeSub_isNegative_iff]
    rcases h with ⟨d, hd⟩ | ⟨hpos, d, hdm, hdn⟩
    · exact ⟨d, hd⟩
    · refine ⟨d, ?_⟩
      rw [Coins.amountOf_eq_zero _ _ hdn]
      exact Coins.amountOf_pos amt d hpos hdm
  rw [SendAuthorization.accept_send, if_pos hneg]

/-- Witness for C1: the record with spend limit [(atom, 100)] rejects a
transfer of (atom, 150). -/
theorem C1_no_overspend_witness :
    (SendAuthorization.mk [Coin.mk "atom" 100] []).accept 0
        (Msg.send "G" "Z" [Coin.mk "atom" 150]) =
      (Except.error AuthzError.insufficientFunds, 0) :=
  C1_no_overspend _ 0 "G" "Z" _ (Or.inl ⟨"atom", by decide⟩)

/-- C2: Allow-list enforcement — with a non-empty allow-list, a limit-valid
transfer to a recipient outside the list is rejected with
RecipientNotAuthorized (ErrUnauthorized); with an empty allow-list, Accept
never returns that rejection, for any message. -/
theorem C2_allow_list_enforcement (a : SendAuthorization) (gas : Nat)
    (fr toAddr : String) (amt : Coins) :
    (a.allowList ≠ [] → (a.spendLimit.safeSub amt).2 = false →
      toAddr ∉ a.allowList →
      (a.accept gas (Msg.send fr toAddr amt)).1 =
        Except.error AuthzError.unauthorized) ∧
    (a.allowList = [] →
      ∀ msg, (a.accept gas msg).1 ≠ Except.error AuthzError.unauthorized) := by
  constructor
  · intro hne hlim hnot
    have hscan : (scanAllowList a.allowList toAddr gas).1 = false :=
      Bool.eq_false_iff.mpr (fun hh => hnot ((scanAllowList_found _ _ _).mp hh))
    rw [SendAuthorization.accept_send, if_neg (by simp [hlim]),
      if_pos ⟨List.length_pos.mpr hne, hscan⟩]
  · intro h0 msg
    exact accept_ne_unauthorized_of_nil a h0 gas msg

/-- Witness for C2: the list ["A", "B"] blocks a limit-valid transfer to C,
and an empty list never yields the unauthorized rejection. -/
theorem C2_allow_list_enforcement_witness :
    ((SendAuthorization.mk [Coin.mk "atom" 50] ["A", "B"]).accept 0
        (Msg.send "G" "C" [Coin.mk "atom" 10])).1 =
      Except.error AuthzError.unauthorized ∧
    ((SendAuthorization.mk [Coin.mk "atom" 50] []).accept 0
        (Msg.send "G" "C" [Coin.mk "atom" 10])).1 ≠
      Except.error AuthzError.unauthorized :=
  ⟨(C2_allow_list_enforcement _ 0 "G" "C" _).1 (by decide) (by decide) (by decide),
   (C2_allow_list_enforcement _ 0 "G" "C" [Coin.mk "atom" 10]).2 rfl
     (Msg.send "G" "C" [Coin.mk "atom" 10])⟩

/-- C8: Concrete scenarios — from {spend_limit:[(atom,100)], allow_list:[]}:
spending (atom,100) accepts and signals deletion with no successor; spending
(atom,40) accepts with successor limit [(atom,60)]; spending (atom,150) is
rejected with InsufficientAuthorization (the input record, a pure value,
stays as it is). From {spend_limit:[(atom,50)], allow_list:[B]}: a transfer
to B of (atom,10) is accepted with successor limit [(atom,40)], and a
transfer to C of (atom,10) is rejected with RecipientNotAuthorized. -/
theorem C8_concrete_scenarios :
    (SendAuthorization.mk [Coin.mk "atom" 100] []).accept 0
        (Msg.send "G" "Z" [Coin.mk "atom" 100]) =
      (Except.ok ⟨true, true, none⟩, 0) ∧
    (SendAuthorization.mk [Coin.mk "atom" 100] []).accept 0
        (Msg.send "G" "Z" [Coin.mk "atom" 40]) =
      (Except.ok ⟨true, false, some (SendAuthorization.mk [Coin.mk "atom" 60] [])⟩, 0) ∧
    (SendAuthorization.mk [Coin.mk "atom" 100] []).accept 0
        (Msg.send "G" "Z" [Coin.mk "atom" 150]) =
      (Except.error AuthzError.insufficientFunds, 0) ∧
    (SendAuthorization.mk [Coin.mk "atom" 50] ["B"]).accept 0
        (Msg.send "G" "B" [Coin.mk "atom" 10]) =
      (Except.ok ⟨true, false, some (SendAuthorization.mk [Coin.mk "atom" 40] ["B"])⟩,
        gasCostPerIteration) ∧
    (SendAuthorization.mk [Coin.mk "atom" 50] ["B"]).accept 0
        (Msg.send "G" "C" [Coin.mk "atom" 10]) =
      (Except.error AuthzError.unauthorized, gasCostPerIteration) :=
  ⟨rfl, rfl, rfl, rfl, rfl⟩

/-- C3: Residual decision and allow-list framing — on every accepted
transfer, when every denomination's residual after the subtraction is
exactly zero the response signals deletion with no successor record;
otherwise it signals keep with a successor whose spend limit is exactly the
residual amounts (the original minus the requested amount, denomination by
denomination) and whose allow-list is identical to the input record's. The
input record is a pure value the evaluator never mutates. -/
theorem C3_residual_decision (a : SendAuthorization) (gas : Nat)
    (fr toAddr : String) (amt : Coins) (resp : AcceptResponse)
    (h : (a.accept gas (Msg.send fr toAddr amt)).1 = Except.ok resp) :
    ((∀ d, (a.spendLimit.safeSub amt).1.amountOf d = 0) →
      resp = ⟨true, true, none⟩) ∧
    ((∃ d, (a.spendLimit.safeSub amt).1.amountOf d ≠ 0) →
      resp = ⟨true, false,
        some (SendAuthorization.mk (a.spendLimit.safeSub amt).1 a.allowList)⟩ ∧
      ∀ d, (a.spendLimit.safeSub amt).1.amountOf d =
        a.spendLimit.amountOf d - amt.amountOf d) := by
  rw [SendAuthorization.accept_send] at h
  by_cases hsub : (a.spendLimit.safeSub amt).2 = true
  · rw [if_pos hsub] at h
    simp at h
  · rw [if_neg hsub] at h
    by_cases hlist : 0 < a.allowList.length ∧
        (scanAllowList a.allowList toAddr gas).1 = false
    · rw [if_pos hlist] at h
      simp at h
    · rw [if_neg hlist] at h
      by_cases hz : (a.spendLimit.safeSub amt).1.isZero = true
      · rw [if_pos hz] at h
        have hresp : resp = ⟨true, true, none⟩ := by
          injection h with h2
          exact h2.symm
        refine ⟨fun _ => hresp, fun hd => ?_⟩
        rcases hd with ⟨d, hd⟩
        exact absurd ((Coins.safeSub_isZero_iff_residual _ _).mp hz d) hd
      · rw [if_neg hz] at h
        have hresp : resp = ⟨true, false,
            some (SendAuthorization.mk (a.spendLimit.safeSub amt).1 a.allowList)⟩ := by
          injection h with h2
          exact h2.symm
        refine ⟨fun hall => ?_, fun _ =>
          ⟨hresp, fun d => Coins.safeSub_amountOf _ _ d⟩⟩
        exact absurd ((Coins.safeSub_isZero_iff_residual _ _).mpr hall) hz

/-- Witness for C3: spending (atom, 40) out of [(atom, 100)] yields the
successor carrying exactly the residual [(atom, 60)]. -/
theorem C3_residual_decision_witness :
    (⟨true, false, some (SendAuthorization.mk [Coin.mk "atom" 60] [])⟩ :
        AcceptResponse) =
      ⟨true, false, some (SendAuthorization.mk
        (Coins.safeSub [Coin.mk "atom" 100] [Coin.mk "atom" 40]).1 [])⟩ :=
  ((C3_residual_decision (SendAuthorization.mk [Coin.mk "atom" 100] []) 0 "G" "Z"
      [Coin.mk "atom" 40]
      ⟨true, false, some (SendAuthorization.mk [Coin.mk "atom" 60] [])⟩
      rfl).2 ⟨"atom", by decide⟩).1

/-- C4: Error order and exclusivity — evaluation yields exactly one of four
mutually exclusive outcomes, in the fixed order: TypeMismatch on a
non-transfer message; InsufficientAuthorization exactly when the checked
subtraction goes negative; RecipientNotAuthorized exactly when the transfer
is limit-valid, the allow-list is non-empty and the recipient is outside
it; success exactly when the transfer is limit-valid and the allow-list is
empty or contains the recipient. The validation-only errors InvalidLimit
and DuplicateAllowListEntry are never returned. -/
theorem C4_error_order_exclusive :
    (∀ (a : SendAuthorization) (gas : Nat),
      (a.accept gas Msg.other).1 = Except.error AuthzError.invalidType) ∧
    (∀ (a : SendAuthorization) (gas : Nat) (fr toAddr : String) (amt : Coins),
      ((a.accept gas (Msg.send fr toAddr amt)).1 =
          Except.error AuthzError.insufficientFunds ↔
        (a.spendLimit.safeSub amt).2 = true) ∧
      ((a.accept gas (Msg.send fr toAddr amt)).1 =
          Except.error AuthzError.unauthorized ↔
        ((a.spendLimit.safeSub amt).2 = false ∧ a.allowList ≠ [] ∧
          toAddr ∉ a.allowList)) ∧
      ((∃ resp, (a.accept gas (Msg.send fr toAddr amt)).1 = Except.ok resp) ↔
        ((a.spendLimit.safeSub amt).2 = false ∧
          (a.allowList = [] ∨ toAddr ∈ a.allowList))) ∧
      (a.accept gas (Msg.send fr toAddr amt)).1 ≠
        Except.error AuthzError.invalidType) ∧
    (∀ (a : SendAuthorization) (gas : Nat) (msg : Msg),
      (a.accept gas msg).1 ≠ Except.error AuthzError.invalidCoins ∧
      (a.accept gas msg).1 ≠ Except.error AuthzError.duplicateEntry) := by
  refine ⟨fun a gas => rfl, ?_, ?_⟩
  · intro a gas fr toAddr amt
    have hiff : (0 < a.allowList.length ∧
        (scanAllowList a.allowList toAddr gas).1 = false) ↔
        (a.allowList ≠ [] ∧ toAddr ∉ a.allowList) := by
      constructor
      · rintro ⟨h1, h2⟩
        refine ⟨List.length_pos.mp h1, fun hmem => ?_⟩
        rw [(scanAllowList_found _ _ _).mpr hmem] at h2
        cases h2
      · rintro ⟨h1, h2⟩
        exact ⟨List.length_pos.mpr h1,
          Bool.eq_false_iff.mpr (fun hh => h2 ((scanAllowList_found _ _ _).mp hh))⟩
    rw [SendAuthorization.accept_send]
    by_cases hsub : (a.spendLimit.safeSub amt).2 = true
    · rw [if_pos hsub]
      exact ⟨by simp [hsub], by simp [hsub], by simp [hsub], by simp⟩
    · have hsubf : (a.spendLimit.safeSub amt).2 = false := Bool.eq_false_iff.mpr hsub
      rw [if_neg hsub]
      by_cases hc : a.allowList ≠ [] ∧ toAddr ∉ a.allowList
      · rw [if_pos (hiff.mpr hc)]
        refine ⟨by simp [hsubf], ⟨fun _ => ⟨hsubf, hc.1, hc.2⟩, fun _ => rfl⟩, ?_, by simp⟩
        simp only [hsubf]
        constructor
        · rintro ⟨resp, hresp⟩
          simp at hresp
        · rintro ⟨_, hor⟩
          rcases hor with hnil | hmem
          · exact absurd hnil hc.1
          · exact absurd hmem hc.2
      · have hc2 : a.allowList = [] ∨ toAddr ∈ a.allowList := by
          rcases not_and_or.mp hc with h1 | h2
          · exact Or.inl (not_not.mp h1)
          · exact Or.inr (not_not.mp h2)
        rw [if_neg (fun hh => hc (hiff.mp hh))]
        by_cases hz : (a.spendLimit.safeSub amt).1.isZero = true
        · rw [if_pos hz]
          refine ⟨by simp [hsubf], ?_, ?_, by simp⟩
          · constructor
            · intro hcon
              simp at hcon
            · rintro ⟨_, hb, hcmem⟩
              exact absurd (And.intro hb hcmem) hc
          · exact ⟨fun _ => ⟨hsubf, hc2⟩, fun _ => ⟨_, rfl⟩⟩
        · rw [if_neg hz]
          refine ⟨by simp [hsubf], ?_, ?_, by simp⟩
          · constructor
            · intro hcon
              simp at hcon
            · rintro ⟨_, hb, hcmem⟩
              exact absurd (And.intro hb hcmem) hc
          · exact ⟨fun _ => ⟨hsubf, hc2⟩, fun _ => ⟨_, rfl⟩⟩
  · intro a gas msg
    cases msg with
    | other =>
      exact ⟨by simp [SendAuthorization.accept], by simp [SendAuthorization.accept]⟩
    | send fr toAddr amt =>
      rw [SendAuthorization.accept_send]
      refine ⟨?_, ?_⟩ <;>
      · by_cases h1 : (a.spendLimit.safeSub amt).2 = true
        · simp [h1]
        · by_cases h2 : 0 < a.allowList.length ∧
              (scanAllowList a.allowList toAddr gas).1 = false
          · simp [h1, h2]
          · by_cases h3 : (a.spendLimit.safeSub amt).1.isZero = true
            · simp [h1, h2, h3]
            · simp [h1, h2, h3]

/-- Witness for C4: the outcome characterization at a record with allow-list
["B"] and a limit-valid transfer to B. -/
theorem C4_error_order_exclusive_witness :
    ∃ resp, ((SendAuthorization.mk [Coin.mk "atom" 50] ["B"]).accept 0
      (Msg.send "G" "B" [Coin.mk "atom" 10])).1 = Except.ok resp :=
  ((C4_error_order_exclusive.2.1 (SendAuthorization.mk [Coin.mk "atom" 50] ["B"])
    0 "G" "B" [Coin.mk "atom" 10]).2.2.1).mpr ⟨by decide, Or.inr (by decide)⟩

/-- C5: Metering fidelity — on a limit-valid transfer the evaluator charges
the fixed per-entry cost once per scanned entry: the final gas counter is
the initial one plus `gasCostPerIteration` times the number of entries
scanned, which is the full list length when the recipient is absent and the
position of the first occurrence (entries up to and including the match)
when present — the scan stops only upon a match. No charge occurs when the
allow-list is empty, when the type check fails, or when the limit check
fails. -/
theorem C5_metering_fidelity (a : SendAuthorization) (gas : Nat)
    (fr toAddr : String) (amt : Coins) :
    ((a.spendLimit.safeSub amt).2 = false →
      (a.accept gas (Msg.send fr toAddr amt)).2 =
        gas + gasCostPerIteration * scanCount a.allowList toAddr) ∧
    (toAddr ∉ a.allowList → scanCount a.allowList toAddr = a.allowList.length) ∧
    (∀ pre suf, toAddr ∉ pre → a.allowList = pre ++ toAddr :: suf →
      scanCount a.allowList toAddr = pre.length + 1) ∧
    (a.allowList = [] → (a.accept gas (Msg.send fr toAddr amt)).2 = gas) ∧
    ((a.accept gas Msg.other).2 = gas) ∧
    ((a.spendLimit.safeSub amt).2 = true →
      (a.accept gas (Msg.send fr toAddr amt)).2 = gas) := by
  refine ⟨?_, ?_, ?_, ?_, rfl, ?_⟩
  · intro hsub
    rw [SendAuthorization.accept_send, if_neg (by simp [hsub])]
    by_cases h2 : 0 < a.allowList.length ∧
        (scanAllowList a.allowList toAddr gas).1 = false
    · rw [if_pos h2]
      exact scanAllowList_gas _ _ _
    · rw [if_neg h2]
      by_cases h3 : (a.spendLimit.safeSub amt).1.isZero = true
      · rw [if_pos h3]
        exact scanAllowList_gas _ _ _
      · rw [if_neg h3]
        exact scanAllowList_gas _ _ _
  · exact scanCount_of_not_mem _ _
  · intro pre suf hp heq
    rw [heq]
    exact scanCount_first_occurrence pre suf toAddr hp
  · intro h0
    rw [SendAuthorization.accept_send]
    by_cases hsub : (a.spendLimit.safeSub amt).2 = true
    · rw [if_pos hsub]
    · rw [if_neg hsub, if_neg (by simp [h0])]
      by_cases h3 : (a.spendLimit.safeSub amt).1.isZero = true
      · rw [if_pos h3]
        rw [h0]
        rfl
      · rw [if_neg h3]
        rw [h0]
        rfl
  · intro hsub
    rw [SendAuthorization.accept_send, if_pos hsub]

/-- Witness for C5: scanning ["A", "B"] for the absent recipient C charges
the per-entry cost twice. -/
theorem C5_metering_fidelity_witness :
    ((SendAuthorization.mk [Coin.mk "atom" 50] ["A", "B"]).accept 0
        (Msg.send "G" "C" [Coin.mk "atom" 10])).2 =
      0 + gasCostPerIteration * scanCount ["A", "B"] "C" :=
  (C5_metering_fidelity (SendAuthorization.mk [Coin.mk "atom" 50] ["A", "B"])
    0 "G" "C" [Coin.mk "atom" 10]).1 (by decide)

/-- C6: Validation — validateBasic fails with InvalidLimit (ErrInvalidCoins)
when the spend limit is empty or carries a non-positive amount; otherwise
it fails with DuplicateAllowListEntry when the allow-list repeats an
identifier (found by a single seen-set pass, returning at the first
duplicate); and it succeeds exactly when the spend limit is non-empty with
all amounts strictly positive and the allow-list has pairwise-distinct
entries. -/
theorem C6_validation (a : SendAuthorization) :
    (a.validateBasic = none ↔
      (a.spendLimit ≠ [] ∧ (∀ c ∈ a.spendLimit, 0 < c.amount) ∧
        a.allowList.Nodup)) ∧
    (a.spendLimit = [] ∨ (∃ c ∈ a.spendLimit, c.amount ≤ 0) →
      a.validateBasic = some AuthzError.invalidCoins) ∧
    (a.spendLimit ≠ [] → (∀ c ∈ a.spendLimit, 0 < c.amount) →
      ¬ a.allowList.Nodup → a.validateBasic = some AuthzError.duplicateEntry) := by
  have hdup : findDuplicate a.allowList [] = none ↔ a.allowList.Nodup := by
    rw [findDuplicate_eq_none_iff a.allowList []]
    simp
  refine ⟨?_, ?_, ?_⟩
  · constructor
    · intro hv
      unfold SendAuthorization.validateBasic at hv
      by_cases h1 : a.spendLimit.length = 0
      · rw [if_pos h1] at hv
        exact Option.noConfusion hv
      · rw [if_neg h1] at hv
        by_cases h2 : a.spendLimit.isAllPositive = true
        · rw [if_neg (by simp [h2])] at hv
          rcases (Coins.isAllPositive_iff _).mp h2 with ⟨hne, hpos⟩
          exact ⟨hne, hpos, hdup.mp hv⟩
        · rw [if_pos (by simp [Bool.eq_false_iff.mpr h2])] at hv
          exact Option.noConfusion hv
    · rintro ⟨hne, hpos, hnd⟩
      exact validateBasic_eq_none_of a hne hpos hnd
  · rintro (hnil | ⟨c, hc, hcle⟩)
    · unfold SendAuthorization.validateBasic
      rw [if_pos (by rw [hnil]; rfl)]
    · unfold SendAuthorization.validateBasic
      by_cases h1 : a.spendLimit.length = 0
      · rw [if_pos h1]
      · rw [if_neg h1]
        have hnp : a.spendLimit.isAllPositive = false := by
          rw [Bool.eq_false_iff]
          intro hap
          exact absurd ((Coins.isAllPositive_iff _).mp hap).2 (by
            intro hall
            exact absurd (hall c hc) (not_lt.mpr hcle))
        rw [if_pos (by simp [hnp])]
  · intro hne hpos hnnd
    unfold SendAuthorization.validateBasic
    rw [if_neg (fun hh => hne (List.length_eq_zero.mp hh)),
      if_neg (by simp [(Coins.isAllPositive_iff a.spendLimit).mpr ⟨hne, hpos⟩])]
    rcases findDuplicate_eq_none_or a.allowList [] with hfd | hfd
    · exact absurd (hdup.mp hfd) hnnd
    · exact hfd

/-- Witness for C6: a record with limit [(atom, 100)] and allow-list
["A", "B"] validates. -/
theorem C6_validation_witness :
    (SendAuthorization.mk [Coin.mk "atom" 100] ["A", "B"]).validateBasic = none :=
  (C6_validation _).1.mpr ⟨by decide, by decide, by decide⟩

/-- C7: Monotonicity — along any sequence of transfers accepted by the
evaluator (one `acceptedStep` and its reflexive-transitive closure) the
residual spend limit never increases in any denomination, and the deletion
signal is returned exactly when every denomination's residual equals
zero. -/
theorem C7_monotonicity :
    (∀ a b, acceptedStep a b →
      ∀ d, b.spendLimit.amountOf d ≤ a.spendLimit.amountOf d) ∧
    (∀ a b, Relation.ReflTransGen acceptedStep a b →
      ∀ d, b.spendLimit.amountOf d ≤ a.spendLimit.amountOf d) ∧
    (∀ (a : SendAuthorization) (gas : Nat) (fr toAddr : String) (amt : Coins)
        (resp : AcceptResponse),
      (a.accept gas (Msg.send fr toAddr amt)).1 = Except.ok resp →
      (resp.delete = true ↔
        ∀ d, (a.spendLimit.safeSub amt).1.amountOf d = 0)) := by
  have hstep : ∀ a b, acceptedStep a b →
      ∀ d, b.spendLimit.amountOf d ≤ a.spendLimit.amountOf d := by
    rintro a b ⟨gas, fr, toAddr, amt, resp, hnn, h, hupd⟩ d
    rw [SendAuthorization.accept_send] at h
    by_cases hsub : (a.spendLimit.safeSub amt).2 = true
    · rw [if_pos hsub] at h
      simp at h
    · rw [if_neg hsub] at h
      by_cases hlist : 0 < a.allowList.length ∧
          (scanAllowList a.allowList toAddr gas).1 = false
      · rw [if_pos hlist] at h
        simp at h
      · rw [if_neg hlist] at h
        by_cases hz : (a.spendLimit.safeSub amt).1.isZero = true
        · rw [if_pos hz] at h
          have hresp : resp = ⟨true, true, none⟩ := by
            injection h with h2
            exact h2.symm
          rw [hresp] at hupd
          exact Option.noConfusion hupd
        · rw [if_neg hz] at h
          have hresp : resp = ⟨true, false,
              some (SendAuthorization.mk (a.spendLimit.safeSub amt).1 a.allowList)⟩ := by
            injection h with h2
            exact h2.symm
          rw [hresp] at hupd
          have hupd2 : some (SendAuthorization.mk (a.spendLimit.safeSub amt).1
              a.allowList) = some b := hupd
          have hb : b = SendAuthorization.mk (a.spendLimit.safeSub amt).1
              a.allowList := by
            injection hupd2 with h3
            exact h3.symm
          rw [hb]
          show ((a.spendLimit.safeSub amt).1).amountOf d ≤ _
          rw [Coins.safeSub_amountOf]
          have := Coins.amountOf_nonneg amt d hnn
          omega
  refine ⟨hstep, ?_, ?_⟩
  · intro a b h
    induction h with
    | refl => exact fun d => le_refl _
    | tail hab hbc ih =>
      exact fun d => le_trans (hstep _ _ hbc d) (ih d)
  · intro a gas fr toAddr amt resp h
    rw [SendAuthorization.accept_send] at h
    by_cases hsub : (a.spendLimit.safeSub amt).2 = true
    · rw [if_pos hsub] at h
      simp at h
    · rw [if_neg hsub] at h
      by_cases hlist : 0 < a.allowList.length ∧
          (scanAllowList a.allowList toAddr gas).1 = false
      · rw [if_pos hlist] at h
        simp at h
      · rw [if_neg hlist] at h
        by_cases hz : (a.spendLimit.safeSub amt).1.isZero = true
        · rw [if_pos hz] at h
          have hresp : resp = ⟨true, true, none⟩ := by
            injection h with h2
            exact h2.symm
          rw [hresp]
          exact ⟨fun _ => (Coins.safeSub_isZero_iff_residual _ _).mp hz,
            fun _ => rfl⟩
        · rw [if_neg hz] at h
          have hresp : resp = ⟨true, false,
              some (SendAuthorization.mk (a.spendLimit.safeSub amt).1 a.allowList)⟩ := by
            injection h with h2
            exact h2.symm
          rw [hresp]
          constructor
          · intro hcon
            exact Bool.noConfusion hcon
          · intro hall
            exact absurd ((Coins.safeSub_isZero_iff_residual _ _).mpr hall) hz

/-- Witness for C7: one accepted step from [(atom, 100)] to [(atom, 60)]
does not increase the atom residual. -/
theorem C7_monotonicity_witness :
    (SendAuthorization.mk [Coin.mk "atom" 60] []).spendLimit.amountOf "atom" ≤
      (SendAuthorization.mk [Coin.mk "atom" 100] []).spendLimit.amountOf "atom" :=
  C7_monotonicity.1 (SendAuthorization.mk [Coin.mk "atom" 100] [])
    (SendAuthorization.mk [Coin.mk "atom" 60] [])
    ⟨0, "G", "Z", [Coin.mk "atom" 40],
      ⟨true, false, some (SendAuthorization.mk [Coin.mk "atom" 60] [])⟩,
      by decide, rfl, rfl⟩ "atom"

/-- C9: Successor validity is preserved — starting from a record that passes
validation, every transfer accepted without the deletion signal yields a
successor that also passes validation: residuals that reach zero are
dropped rather than kept as zero-amount entries, every kept amount is
strictly positive (so the successor limit is non-empty and all-positive),
and the carried-over allow-list stays duplicate-free. -/
theorem C9_successor_valid (a : SendAuthorization) (gas : Nat)
    (fr toAddr : String) (amt : Coins) (b : SendAuthorization)
    (hval : a.validateBasic = none)
    (h : (a.accept gas (Msg.send fr toAddr amt)).1 =
      Except.ok ⟨true, false, some b⟩) :
    b.validateBasic = none ∧ (∀ c ∈ b.spendLimit, 0 < c.amount) ∧
      b.allowList = a.allowList := by
  have hdupa : findDuplicate a.allowList [] = none := by
    unfold SendAuthorization.validateBasic at hval
    by_cases h1 : a.spendLimit.length = 0
    · rw [if_pos h1] at hval
      exact Option.noConfusion hval
    · rw [if_neg h1] at hval
      by_cases h2 : (!a.spendLimit.isAllPositive) = true
      · rw [if_pos h2] at hval
        exact Option.noConfusion hval
      · rw [if_neg h2] at hval
        exact hval
  rw [SendAuthorization.accept_send] at h
  by_cases hsub : (a.spendLimit.safeSub amt).2 = true
  · rw [if_pos hsub] at h
    simp at h
  · rw [if_neg hsub] at h
    have hsubf : (a.spendLimit.safeSub amt).2 = false := Bool.eq_false_iff.mpr hsub
    by_cases hlist : 0 < a.allowList.length ∧
        (scanAllowList a.allowList toAddr gas).1 = false
    · rw [if_pos hlist] at h
      simp at h
    · rw [if_neg hlist] at h
      by_cases hz : (a.spendLimit.safeSub amt).1.isZero = true
      · rw [if_pos hz] at h
        injection h with h2
        injection h2 with ha hd hu
        exact Bool.noConfusion hd
      · rw [if_neg hz] at h
        injection h with h2
        injection h2 with ha hd hu
        have hb : b = SendAuthorization.mk (a.spendLimit.safeSub amt).1
            a.allowList := by
          injection hu with h3
          exact h3.symm
        have hone : (a.spendLimit.safeSub amt).1 ≠ [] :=
          Coins.isZero_false_ne_nil _ (Bool.eq_false_iff.mpr hz)
        have hpos : ∀ c ∈ (a.spendLimit.safeSub amt).1, 0 < c.amount :=
          Coins.safeSub_pos _ _ hsubf
        have hnd : a.allowList.Nodup :=
          (((findDuplicate_eq_none_iff a.allowList []).mp hdupa)).1
        rw [hb]
        exact ⟨validateBasic_eq_none_of _ hone hpos hnd, hpos, rfl⟩

/-- Witness for C9: spending (atom, 40) out of the valid record
[(atom, 100)] yields a successor that validates. -/
theorem C9_successor_valid_witness :
    (SendAuthorization.mk [Coin.mk "atom" 60] []).validateBasic = none :=
  (C9_successor_valid (SendAuthorization.mk [Coin.mk "atom" 100] []) 0 "G" "Z"
    [Coin.mk "atom" 40] (SendAuthorization.mk [Coin.mk "atom" 60] [])
    rfl rfl).1

/-- C10: Empty allowed list canonicalizes to no restriction — constructing
a record through NewSendAuthorization with an empty allowed list yields a
nil allow-list, which Accept treats as any-recipient-permitted (the
unauthorized rejection is impossible) and which validateBasic accepts
whenever the spend limit itself is valid; a non-empty allowed list yields
exactly one canonical string entry per input address, in input order. -/
theorem C10_empty_allow_list (sl : Coins) (codec : AccAddress → String)
    (allowed : List AccAddress) :
    ((NewSendAuthorization sl [] codec).allowList = []) ∧
    (∀ gas msg, ((NewSendAuthorization sl [] codec).accept gas msg).1 ≠
      Except.error AuthzError.unauthorized) ∧
    (sl ≠ [] → (∀ c ∈ sl, 0 < c.amount) →
      (NewSendAuthorization sl [] codec).validateBasic = none) ∧
    ((NewSendAuthorization sl allowed codec).allowList = allowed.map codec) := by
  refine ⟨rfl, ?_, ?_, ?_⟩
  · intro gas msg
    exact accept_ne_unauthorized_of_nil _ rfl gas msg
  · intro hne hpos
    exact validateBasic_eq_none_of _ hne hpos List.nodup_nil
  · have hal : (NewSendAuthorization sl allowed codec).allowList =
        toBech32Addresses allowed codec := rfl
    rw [hal]
    unfold toBech32Addresses
    by_cases hl : allowed.length = 0
    · rw [if_pos hl, List.length_eq_zero.mp hl]
      rfl
    · rw [if_neg hl]

/-- Witness for C10: constructing with spend limit [(atom, 5)] and no
allowed addresses yields a record that validates. -/
theorem C10_empty_allow_list_witness :
    (NewSendAuthorization [Coin.mk "atom" 5] [] (fun _ => "A")).validateBasic =
      none :=
  (C10_empty_allow_list [Coin.mk "atom" 5] (fun _ => "A") []).2.2.1
    (by decide) (by decide)

end SendAuth
